import Mathlib

/-!
Verification of the Boyer-Moore exact matcher, the subsequence index and the
pigeonhole approximate matchers from
`courses/course_3_algorithms_for_dna_seq/algorithms_for_dna_sequencing_week_2.py`
(and the older copy under `courses/L02_algorithms_for_dna_sequencing/`).

Strings are embedded as `List Char`; Python integer arithmetic is embedded as
`Nat`/`Int` arithmetic with the exact guard structure of the source.  The
Boyer-Moore preprocessing module (`utils/boyer_moore_preproc.py`) is imported
by the source but is not part of the excerpt; its three query functions are
modelled from the specification's description (see the doc comments on
`bad_character_rule`, `good_suffix_rule` and `match_skip`).
-/

set_option maxHeartbeats 1000000

namespace GDS

/-- Character lookup `t[k]`; every use in the development is in range, the
default is irrelevant. -/
def charAt (t : List Char) (k : Nat) : Char :=
  t.getD k 'A'

/-- Python slice comparison `t[s:s+len(p)] == p`. -/
def matchesAt (p t : List Char) (s : Nat) : Bool :=
  decide ((t.drop s).take p.length = p)

/-- `int(round(n / d))` for nonnegative integers, Python 3 `round`
(round-half-to-even).  The source only applies it to small fractions, where the
float division is exact enough that this rational rounding coincides with the
Python value. -/
def pyRound (n d : Nat) : Nat :=
  let q := n / d
  let r := n % d
  if 2 * r < d then q
  else if d < 2 * r then q + 1
  else if q % 2 = 0 then q else q + 1

/-- The right-to-left comparison loop of `BoyerMooreExact.query`: scanning
`j = n-1, n-2, ..., 0`, return the first (largest) `j` where
`p[j] != t[s+j]`, or `none` when the whole window matches. -/
def mmAux (p t : List Char) (s : Nat) : Nat → Option Nat
  | 0 => none
  | j + 1 => if charAt p j ≠ charAt t (s + j) then some j else mmAux p t s j

/-- Index of the first mismatch met by the right-to-left scan at alignment `s`. -/
def mismatchIdx (p t : List Char) (s : Nat) : Option Nat :=
  mmAux p t s p.length

/-- Rightmost position `i < j` with `p[i] = c` (helper for the bad-character
table). -/
def lastOccBefore (p : List Char) (c : Char) : Nat → Option Nat
  | 0 => none
  | j + 1 => if charAt p j = c then some j else lastOccBefore p c j

/-- Modelled from the spec: `BoyerMoorePreprocessing.bad_character_rule(j, c)`
of the missing `utils/boyer_moore_preproc.py` — "j minus the rightmost
position < j where c occurs in the pattern, or j+1 if c never occurs to the
left". -/
def bad_character_rule (p : List Char) (j : Nat) (c : Char) : Nat :=
  match lastOccBefore p c j with
  | some i => j - i
  | none => j + 1

/-- Agreement of the pattern with itself under shift `s` on positions
`lo ≤ i < |p|` that still face the pattern (`s ≤ i`).  `agree p lo s` says a
shift by `s` keeps every already-matched character `p[i]` (for `i ≥ lo`)
consistent with the pattern character `p[i-s]` newly aligned under it. -/
def agreeP (p : List Char) (lo s : Nat) : Prop :=
  ∀ i, i < p.length → lo ≤ i → s ≤ i → charAt p (i - s) = charAt p i

/-- Boolean form of `agreeP`. -/
def agreeB (p : List Char) (lo s : Nat) : Bool :=
  (List.range p.length).all fun i =>
    !(decide (lo ≤ i) && decide (s ≤ i)) || decide (charAt p (i - s) = charAt p i)

/-- Linear search for the least shift `≥ s` that satisfies `agreeB`; `fuel`
bounds the search (a shift of `|p|` always agrees, so `fuel = |p|` starting
from `s = 1` never runs out). -/
def findShiftAux (p : List Char) (lo : Nat) : Nat → Nat → Nat
  | 0, s => s
  | fuel + 1, s => if agreeB p lo s then s else findShiftAux p lo fuel (s + 1)

/-- Least shift `s ≥ 1` under which the pattern agrees with itself on
positions `≥ lo`. -/
def findShift (p : List Char) (lo : Nat) : Nat :=
  findShiftAux p lo p.length 1

/-- Modelled from the spec: `BoyerMoorePreprocessing.good_suffix_rule(j)` of
the missing `utils/boyer_moore_preproc.py` — "the minimal shift ≥ 1
guaranteeing the previously-matched suffix P[j+1..p) reappears at the new
alignment (or its border does)", i.e. the least `s ≥ 1` whose self-overlap is
consistent with every matched position `i ≥ j+1`. -/
def good_suffix_rule (p : List Char) (j : Nat) : Nat :=
  findShift p (j + 1)

/-- Modelled from the spec: `BoyerMoorePreprocessing.match_skip()` of the
missing `utils/boyer_moore_preproc.py` — "p minus the length of the longest
proper border (prefix that is also a suffix) of P", equivalently the least
shift `s ≥ 1` under which the pattern fully agrees with itself. -/
def match_skip (p : List Char) : Nat :=
  findShift p 0

/-- The shift applied at the end of one iteration of the scanning loop:
`max(bad_char_shift, good_suffix_shift, 1)` on a mismatch (`shift` starts the
iteration at `1`), `max(shift, match_skip())` = `max(1, match_skip())` on a
full match. -/
def shiftAt (p t : List Char) (s : Nat) : Nat :=
  match mismatchIdx p t s with
  | some j => max (max (bad_character_rule p j (charAt t (s + j))) (good_suffix_rule p j)) 1
  | none => max 1 (match_skip p)

/-- Number of character comparisons spent at alignment `s` (the inner loop
increments the counter once per visited `j`). -/
def compsAt (p t : List Char) (s : Nat) : Nat :=
  match mismatchIdx p t s with
  | some j => p.length - j
  | none => p.length

/-- The `while alignment_start_idx <= len(t) - len(p)` loop of
`BoyerMooreExact.query`, with an explicit fuel (the caller supplies
`len(t)+1`, which suffices because every shift is `≥ 1`).  The Python guard is
over possibly-negative ints, so it is embedded additively as
`s + len(p) ≤ len(t)`.  Returns
`(occurrences, num_alignments_tried, num_char_comparisons)`. -/
def bmLoop (p t : List Char) : Nat → Nat → List Nat × Nat × Nat
  | 0, _ => ([], 0, 0)
  | fuel + 1, s =>
    if s + p.length ≤ t.length then
      let rest := bmLoop p t fuel (s + shiftAt p t s)
      ((if (mismatchIdx p t s).isNone then s :: rest.1 else rest.1),
        rest.2.1 + 1, compsAt p t s + rest.2.2)
    else ([], 0, 0)

/-- `BoyerMooreExact.query(t)` from
`course_3_algorithms_for_dna_seq/algorithms_for_dna_sequencing_week_2.py`. -/
def query (p t : List Char) : List Nat × Nat × Nat :=
  bmLoop p t (t.length + 1) 0

/-- The loop of `BoyerMoore.boyer_moore_alignment` from
`L02_algorithms_for_dna_sequencing/...week_2.py`: identical scan, but the
second returned component is the final `alignment_start_idx` (the source sets
`num_alignments_tried = alignment_start_idx` after the loop). -/
def bmLoopL02 (p t : List Char) : Nat → Nat → List Nat × Nat × Nat
  | 0, s => ([], s, 0)
  | fuel + 1, s =>
    if s + p.length ≤ t.length then
      let rest := bmLoopL02 p t fuel (s + shiftAt p t s)
      ((if (mismatchIdx p t s).isNone then s :: rest.1 else rest.1),
        rest.2.1, compsAt p t s + rest.2.2)
    else ([], s, 0)

/-- `BoyerMoore.boyer_moore_alignment(t)` (the L02 variant). -/
def queryL02 (p t : List Char) : List Nat × Nat × Nat :=
  bmLoopL02 p t (t.length + 1) 0

/-- The sequence of alignment offsets visited by the scanning loop. -/
def alignsAux (p t : List Char) : Nat → Nat → List Nat
  | 0, _ => []
  | fuel + 1, s =>
    if s + p.length ≤ t.length then s :: alignsAux p t fuel (s + shiftAt p t s)
    else []

/-- All alignment offsets tried by `query p t` (one per while-loop
iteration). -/
def alignsList (p t : List Char) : List Nat :=
  alignsAux p t (t.length + 1) 0

/-- Brute-force occurrence list: every `i` with `i + |p| ≤ |t|` and
`t[i:i+|p|] == p`, in increasing order. -/
def bruteList (p t : List Char) : List Nat :=
  (List.range (t.length + 1 - p.length)).filter (matchesAt p t)

/-- Hamming distance between `p` and the window of `t` starting at `a`. -/
def hamming (p t : List Char) (a : Nat) : Nat :=
  (List.range p.length).countP fun j => decide (charAt p j ≠ charAt t (a + j))

/-- Early-exit mismatch counter, one `for j in js` loop of `query_bm`'s
verification step: `if f j: acc += 1; if acc > m: break`. -/
def ecount (f : Nat → Bool) (m : Nat) : List Nat → Nat → Nat
  | [], acc => acc
  | j :: js, acc =>
    if f j then
      if m < acc + 1 then acc + 1 else ecount f m js (acc + 1)
    else ecount f m js acc

/-- Python `set.add` on an accumulated duplicate-free list. -/
def sinsert (a : Nat) (l : List Nat) : List Nat :=
  if a ∈ l then l else a :: l

/-- The `for match in occurrences_` verification loop of
`PigeonHoleApproximateMatching.query_bm`: count every hit, skip hits whose
implied alignment is out of range, verify the pattern outside the partition
with the early-exit mismatch counter, and record accepted alignments. -/
def procMatches (p t : List Char) (m ps pe : Nat) :
    List Nat → List Nat → Nat → List Nat × Nat
  | [], occ, hits => (occ, hits)
  | o :: os, occ, hits =>
    if o < ps then procMatches p t m ps pe os occ (hits + 1)
    else if t.length < o - ps + p.length then procMatches p t m ps pe os occ (hits + 1)
    else
      if ecount (fun j => decide (charAt p j ≠ charAt t (o - ps + j))) m
          (List.range' pe (p.length - pe))
          (ecount (fun j => decide (charAt p j ≠ charAt t (o - ps + j))) m
            (List.range ps) 0) ≤ m then
        procMatches p t m ps pe os (sinsert (o - ps) occ) (hits + 1)
      else procMatches p t m ps pe os occ (hits + 1)

/-- The `for i in range(m+1)` partition loop of `query_bm`, fueled by the
number of remaining partitions; the loop breaks on the first empty
partition. -/
def qbLoop (p t : List Char) (m L : Nat) : Nat → Nat → List Nat → Nat → List Nat × Nat
  | 0, _, occ, hits => (occ, hits)
  | rem + 1, i, occ, hits =>
    if ((p.drop (i * L)).take (min (i * L + L) p.length - i * L)).isEmpty then
      (occ, hits)
    else
      qbLoop p t m L rem (i + 1)
        (procMatches p t m (i * L) (min (i * L + L) p.length)
          (query ((p.drop (i * L)).take (min (i * L + L) p.length - i * L)) t).1
          occ hits).1
        (procMatches p t m (i * L) (min (i * L + L) p.length)
          (query ((p.drop (i * L)).take (min (i * L + L) p.length - i * L)) t).1
          occ hits).2

/-- `PigeonHoleApproximateMatching.query_bm(p, t, m)`:
`partition_length = int(round(len(p)/(m+1)))`, exact-match every partition
with Boyer-Moore, verify each hit, return the sorted occurrence set and the
total hit count. -/
def query_bm (p t : List Char) (m : Nat) : List Nat × Nat :=
  ((qbLoop p t m (pyRound p.length (m + 1)) (m + 1) 0 [] 0).1.insertionSort (· ≤ ·),
    (qbLoop p t m (pyRound p.length (m + 1)) (m + 1) 0 [] 0).2)

/-- Python string comparison (lexicographic on code points), as used by tuple
comparison in `list.sort` and `bisect`. -/
def listLtB : List Char → List Char → Bool
  | [], [] => false
  | [], _ :: _ => true
  | _ :: _, [] => false
  | a :: as, b :: bs => if a < b then true else if b < a then false else listLtB as bs

/-- Python tuple comparison `(subseq, offset) < (subseq', offset')`. -/
def entLtB (x y : List Char × Int) : Bool :=
  listLtB x.1 y.1 || (decide (x.1 = y.1) && decide (x.2 < y.2))

/-- The (non-strict) tuple order used to model `list.sort()`. -/
def entLe (x y : List Char × Int) : Prop :=
  entLtB y x = false

instance : DecidableRel entLe := fun x y => by
  unfold entLe
  infer_instance

/-- Python extended slice `l[start:stop:step]` for nonnegative bounds and a
positive step. -/
def pySlice (l : List Char) (start stop step : Nat) : List Char :=
  (List.range ((min stop l.length - start + (step - 1)) / step)).map
    fun j => charAt l (start + j * step)

/-- `self.span = 1 + ival * (k - 1)` of `SubseqIndex`. -/
def span (k ival : Nat) : Nat :=
  1 + ival * (k - 1)

/-- The unsorted `(subsequence, offset)` pairs built by `SubseqIndex.__init__`:
`(t[i:i+span:ival], i)` for every `i in range(len(t) - span + 1)`. -/
def subseqEntries (t : List Char) (k ival : Nat) : List (List Char × Int) :=
  (List.range (t.length + 1 - span k ival)).map
    fun i => (pySlice t i (i + span k ival) ival, (i : Int))

/-- `self.index` after `self.index.sort()`: the entries sorted by the tuple
order (subsequence first, then offset; the offsets are pairwise distinct, so
the sorted permutation is unique and any correct sort models `list.sort`). -/
def subseqSorted (t : List Char) (k ival : Nat) : List (List Char × Int) :=
  List.insertionSort entLe (subseqEntries t k ival)

/-- `bisect.bisect_left(self.index, (subseq, -1))`, modelled by its contract
on a sorted list: the first position whose entry is not `< (subseq, -1)`. -/
def bisect_left (idx : List (List Char × Int)) (key : List Char × Int) : Nat :=
  idx.findIdx fun e => !entLtB e key

/-- The `while i < len(self.index)` collection loop of `SubseqIndex.get_hits`,
walking from the bisection point and collecting offsets while the entry's
subsequence equals the query (expressed on the suffix of the index starting at
that position). -/
def collectTW (sub : List Char) : List (List Char × Int) → List Int
  | [] => []
  | e :: es => if e.1 = sub then e.2 :: collectTW sub es else []

/-- `SubseqIndex(t, k, ival).get_hits(p)` (also `get_occurrences(p)`, which
just returns `get_hits(p)` — the verification code in the source is commented
out). -/
def get_hits (t : List Char) (k ival : Nat) (p : List Char) : List Int :=
  collectTW (pySlice p 0 (span k ival) ival)
    ((subseqSorted t k ival).drop
      (bisect_left (subseqSorted t k ival) (pySlice p 0 (span k ival) ival, -1)))

/-- Python `set.add` on an accumulated duplicate-free list of ints. -/
def sinsertI (a : Int) (l : List Int) : List Int :=
  if a ∈ l then l else a :: l

/-- Early-exit mismatch counter of `query_subseq_index`; because of the
`for m in matches` shadowing in the source, the break threshold is the Int
`thr` (the current index hit), not the mismatch budget. -/
def ecountI (f : Nat → Bool) (thr : Int) : List Nat → Nat → Nat
  | [], acc => acc
  | j :: js, acc =>
    if f j then
      if thr < ((acc + 1 : Nat) : Int) then acc + 1 else ecountI f thr js (acc + 1)
    else ecountI f thr js acc

/-- Character lookup at an Int index (every use is at a nonnegative index). -/
def charAtI (t : List Char) (x : Int) : Char :=
  charAt t x.toNat

/-- The `for m in matches` loop of `query_subseq_index`: the loop variable
`m` shadows the mismatch budget, so both the early-exit threshold and the
final acceptance test compare against the hit offset `h` itself. -/
def qsProc (p t : List Char) (start : Nat) : List Int → List Int → Nat → List Int × Nat
  | [], acc, hits => (acc, hits)
  | h :: hs, acc, hits =>
    if h < (start : Int) then qsProc p t start hs acc (hits + 1)
    else if (t.length : Int) < h - start + p.length then qsProc p t start hs acc (hits + 1)
    else
      if ((ecountI (fun j => decide (charAt p j ≠ charAtI t (h - start + j))) h
          (List.range p.length) 0 : Nat) : Int) ≤ h then
        qsProc p t start hs (sinsertI (h - start) acc) (hits + 1)
      else qsProc p t start hs acc (hits + 1)

/-- The `for i in range(m+1)` seed loop of `query_subseq_index` (the range
bound is evaluated once, with the original budget `m`, before the loop
variable is shadowed).  The subsequence index of `t` is built once; querying
it is pure, so re-evaluating `get_hits` per seed is observationally the
same. -/
def qsLoop (p t : List Char) (k ival : Nat) : Nat → Nat → List Int → Nat → List Int × Nat
  | 0, _, acc, hits => (acc, hits)
  | rem + 1, i, acc, hits =>
    qsLoop p t k ival rem (i + 1)
      (qsProc p t i (get_hits t k ival (p.drop i)) acc hits).1
      (qsProc p t i (get_hits t k ival (p.drop i)) acc hits).2

/-- `PigeonHoleApproximateMatching.query_subseq_index(p, t, m, ival, k)`;
`k` defaults (also when passed as the falsy `0`) to
`max(int(round(len(p)/(m+1))), int(len(p)/2))`. -/
def query_subseq_index (p t : List Char) (m ival : Nat) (kOpt : Option Nat) :
    List Int × Nat :=
  ((qsLoop p t
      (match kOpt with
        | none => max (pyRound p.length (m + 1)) (p.length / 2)
        | some k0 => if k0 = 0 then max (pyRound p.length (m + 1)) (p.length / 2) else k0)
      ival (m + 1) 0 [] 0).1.insertionSort (· ≤ ·),
    (qsLoop p t
      (match kOpt with
        | none => max (pyRound p.length (m + 1)) (p.length / 2)
        | some k0 => if k0 = 0 then max (pyRound p.length (m + 1)) (p.length / 2) else k0)
      ival (m + 1) 0 [] 0).2)

lemma charAt_eq_getElem {t : List Char} {k : Nat} (h : k < t.length) :
    charAt t k = t[k] :=
  List.getD_eq_getElem t 'A' h

lemma charAt_drop_take {t : List Char} {n s j : Nat} (hj : j < n)
    (hle : s + n ≤ t.length) :
    charAt ((t.drop s).take n) j = charAt t (s + j) := by
  have h1 : j < ((t.drop s).take n).length := by
    simp only [List.length_take, List.length_drop]
    omega
  have h2 : s + j < t.length := by omega
  rw [charAt_eq_getElem h1, charAt_eq_getElem h2]
  rw [List.getElem_take, List.getElem_drop]

lemma matchesAt_true_iff {p t : List Char} {s : Nat} (h : s + p.length ≤ t.length) :
    matchesAt p t s = true ↔ ∀ j, j < p.length → charAt p j = charAt t (s + j) := by
  unfold matchesAt
  rw [decide_eq_true_eq]
  constructor
  · intro he j hj
    have e := charAt_drop_take (t := t) (s := s) hj h
    rw [he] at e
    exact e
  · intro hpt
    apply List.ext_getElem
    · simp only [List.length_take, List.length_drop]
      omega
    · intro n h1 h2
      have hn : n < p.length := h2
      have e1 := charAt_drop_take (t := t) (s := s) hn h
      have e2 := hpt n hn
      rw [← charAt_eq_getElem h1, ← charAt_eq_getElem h2, e1, ← e2]

lemma matchesAt_length {p t : List Char} {s : Nat} (hp : 1 ≤ p.length)
    (hm : matchesAt p t s = true) : s + p.length ≤ t.length := by
  unfold matchesAt at hm
  rw [decide_eq_true_eq] at hm
  have hlen := congrArg List.length hm
  simp only [List.length_take, List.length_drop] at hlen
  omega

lemma mmAux_none_iff (p t : List Char) (s : Nat) (n : Nat) :
    mmAux p t s n = none ↔ ∀ j, j < n → charAt p j = charAt t (s + j) := by
  induction n with
  | zero => simp [mmAux]
  | succ n ih =>
    rw [mmAux]
    by_cases hc : charAt p n = charAt t (s + n)
    · rw [if_neg (by simp [hc])]
      rw [ih]
      constructor
      · intro hall j hj
        rcases Nat.lt_succ_iff_lt_or_eq.mp hj with h' | h'
        · exact hall j h'
        · subst h'; exact hc
      · intro hall j hj
        exact hall j (Nat.lt_succ_of_lt hj)
    · rw [if_pos hc]
      constructor
      · intro hcontra; simp at hcontra
      · intro hall
        exact absurd (hall n (Nat.lt_succ_self n)) hc

lemma mmAux_some (p t : List Char) (s : Nat) {n j : Nat}
    (h : mmAux p t s n = some j) :
    j < n ∧ charAt p j ≠ charAt t (s + j) ∧
      ∀ i, j < i → i < n → charAt p i = charAt t (s + i) := by
  induction n with
  | zero => simp [mmAux] at h
  | succ n ih =>
    rw [mmAux] at h
    by_cases hc : charAt p n ≠ charAt t (s + n)
    · rw [if_pos hc] at h
      have hj : n = j := by injection h
      subst hj
      refine ⟨Nat.lt_succ_self n, hc, ?_⟩
      intro i hi1 hi2
      omega
    · rw [if_neg hc] at h
      obtain ⟨h1, h2, h3⟩ := ih h
      push_neg at hc
      refine ⟨Nat.lt_succ_of_lt h1, h2, ?_⟩
      intro i hi1 hi2
      rcases Nat.lt_succ_iff_lt_or_eq.mp hi2 with h' | h'
      · exact h3 i hi1 h'
      · subst h'; exact hc

lemma mismatchIdx_none_iff (p t : List Char) (s : Nat) :
    mismatchIdx p t s = none ↔ ∀ j, j < p.length → charAt p j = charAt t (s + j) :=
  mmAux_none_iff p t s p.length

lemma isNone_mismatchIdx_eq_matchesAt {p t : List Char} {s : Nat}
    (h : s + p.length ≤ t.length) :
    (mismatchIdx p t s).isNone = matchesAt p t s := by
  rw [Bool.eq_iff_iff, Option.isNone_iff_eq_none, mismatchIdx_none_iff,
    matchesAt_true_iff h]

lemma lastOccBefore_some {p : List Char} {c : Char} {j i : Nat}
    (h : lastOccBefore p c j = some i) :
    i < j ∧ charAt p i = c ∧ ∀ i', i < i' → i' < j → charAt p i' ≠ c := by
  induction j with
  | zero => simp [lastOccBefore] at h
  | succ j ih =>
    rw [lastOccBefore] at h
    by_cases hc : charAt p j = c
    · rw [if_pos hc] at h
      have hj : j = i := by injection h
      subst hj
      refine ⟨Nat.lt_succ_self j, hc, ?_⟩
      intro i' hi1 hi2
      omega
    · rw [if_neg hc] at h
      obtain ⟨h1, h2, h3⟩ := ih h
      refine ⟨Nat.lt_succ_of_lt h1, h2, ?_⟩
      intro i' hi1 hi2
      rcases Nat.lt_succ_iff_lt_or_eq.mp hi2 with h' | h'
      · exact h3 i' hi1 h'
      · subst h'; exact hc

lemma lastOccBefore_none {p : List Char} {c : Char} {j : Nat}
    (h : lastOccBefore p c j = none) :
    ∀ i, i < j → charAt p i ≠ c := by
  induction j with
  | zero => intro i hi; omega
  | succ j ih =>
    rw [lastOccBefore] at h
    by_cases hc : charAt p j = c
    · rw [if_pos hc] at h; simp at h
    · rw [if_neg hc] at h
      intro i hi
      rcases Nat.lt_succ_iff_lt_or_eq.mp hi with h' | h'
      · exact ih h i h'
      · subst h'; exact hc

lemma findShiftAux_ge (p : List Char) (lo : Nat) :
    ∀ fuel s, s ≤ findShiftAux p lo fuel s := by
  intro fuel
  induction fuel with
  | zero => intro s; simp [findShiftAux]
  | succ fuel ih =>
    intro s
    rw [findShiftAux]
    by_cases ha : agreeB p lo s = true
    · rw [if_pos ha]
    · rw [if_neg ha]
      exact le_trans (Nat.le_succ s) (ih (s + 1))

lemma findShiftAux_min (p : List Char) (lo : Nat) :
    ∀ fuel s s', s ≤ s' → s' < findShiftAux p lo fuel s → agreeB p lo s' = false := by
  intro fuel
  induction fuel with
  | zero =>
    intro s s' h1 h2
    rw [findShiftAux] at h2
    omega
  | succ fuel ih =>
    intro s s' h1 h2
    rw [findShiftAux] at h2
    by_cases ha : agreeB p lo s = true
    · rw [if_pos ha] at h2; omega
    · rw [if_neg ha] at h2
      rcases eq_or_lt_of_le h1 with h' | h'
      · subst h'; exact Bool.eq_false_iff.mpr ha
      · exact ih (s + 1) s' h' h2

lemma agreeB_iff (p : List Char) (lo s : Nat) :
    agreeB p lo s = true ↔ agreeP p lo s := by
  unfold agreeB agreeP
  rw [List.all_eq_true]
  constructor
  · intro h i h1 h2 h3
    have := h i (List.mem_range.mpr h1)
    simp only [Bool.or_eq_true, Bool.not_eq_eq_eq_not, Bool.not_true,
      Bool.and_eq_false_iff, decide_eq_false_iff_not, decide_eq_true_eq] at this
    rcases this with h' | h'
    · rcases h' with h'' | h'' <;> omega
    · exact h'
  · intro h i hi
    rw [List.mem_range] at hi
    by_cases h2 : lo ≤ i
    · by_cases h3 : s ≤ i
      · simp [h i hi h2 h3]
      · simp [h3]
    · simp [h2]

lemma findShift_pos (p : List Char) (lo : Nat) : 1 ≤ findShift p lo :=
  findShiftAux_ge p lo p.length 1

lemma findShift_min {p : List Char} {lo s' : Nat} (h1 : 1 ≤ s')
    (h2 : s' < findShift p lo) : ¬ agreeP p lo s' := by
  intro hP
  have hB := findShiftAux_min p lo p.length 1 s' h1 h2
  rw [← agreeB_iff] at hP
  rw [hP] at hB
  simp at hB

lemma shiftAt_pos (p t : List Char) (s : Nat) : 1 ≤ shiftAt p t s := by
  unfold shiftAt
  cases mismatchIdx p t s with
  | some j => exact le_trans (Nat.le_refl 1) (le_max_right _ 1)
  | none => exact le_max_left 1 _

/-- Safety of the applied shift: no occurrence of the pattern starts strictly
between the current alignment and the next one. -/
lemma shift_safe (p t : List Char) (s δ : Nat) (_hs : s + p.length ≤ t.length)
    (h1 : 1 ≤ δ) (h2 : δ < shiftAt p t s) : matchesAt p t (s + δ) = false := by
  by_contra hm
  rw [Bool.not_eq_false] at hm
  cases hmm : mismatchIdx p t s with
  | some j =>
    obtain ⟨hjlen, hne, hmax⟩ := mmAux_some p t s hmm
    have hplen : 1 ≤ p.length := by omega
    have hlen : s + δ + p.length ≤ t.length := matchesAt_length hplen hm
    have hpt := (matchesAt_true_iff hlen).mp hm
    simp only [shiftAt, hmm] at h2
    have hbcgs : δ < max (bad_character_rule p j (charAt t (s + j)))
        (good_suffix_rule p j) := by
      rcases lt_max_iff.mp h2 with h' | h'
      · exact h'
      · omega
    rcases lt_max_iff.mp hbcgs with hbc | hgs
    · cases hlast : lastOccBefore p (charAt t (s + j)) j with
      | some r =>
        simp only [bad_character_rule, hlast] at hbc
        obtain ⟨hrj, hrc, hrmax⟩ := lastOccBefore_some hlast
        have e1 : charAt p (j - δ) = charAt t (s + δ + (j - δ)) :=
          hpt (j - δ) (by omega)
        have e2 : s + δ + (j - δ) = s + j := by omega
        rw [e2] at e1
        exact hrmax (j - δ) (by omega) (by omega) e1
      | none =>
        simp only [bad_character_rule, hlast] at hbc
        have hnone := lastOccBefore_none hlast
        have e1 : charAt p (j - δ) = charAt t (s + δ + (j - δ)) :=
          hpt (j - δ) (by omega)
        have e2 : s + δ + (j - δ) = s + j := by omega
        rw [e2] at e1
        exact hnone (j - δ) (by omega) e1
    · unfold good_suffix_rule at hgs
      have hnag := findShift_min h1 hgs
      unfold agreeP at hnag
      push_neg at hnag
      obtain ⟨i, hi1, hi2, hi3, hi4⟩ := hnag
      have e1 : charAt p (i - δ) = charAt t (s + δ + (i - δ)) :=
        hpt (i - δ) (by omega)
      have e2 : s + δ + (i - δ) = s + i := by omega
      have e3 : charAt p i = charAt t (s + i) := hmax i (by omega) hi1
      exact hi4 (by rw [e1, e2, ← e3])
  | none =>
    by_cases hp : p.length = 0
    · simp only [shiftAt, hmm] at h2
      unfold match_skip findShift at h2
      rw [hp] at h2
      simp [findShiftAux] at h2
      omega
    · have hplen : 1 ≤ p.length := by omega
      have hlen : s + δ + p.length ≤ t.length := matchesAt_length hplen hm
      have hpt := (matchesAt_true_iff hlen).mp hm
      have hall := (mismatchIdx_none_iff p t s).mp hmm
      simp only [shiftAt, hmm] at h2
      have hms : δ < match_skip p := by
        rcases lt_max_iff.mp h2 with h' | h'
        · omega
        · exact h'
      unfold match_skip at hms
      have hnag := findShift_min h1 hms
      unfold agreeP at hnag
      push_neg at hnag
      obtain ⟨i, hi1, _, hi3, hi4⟩ := hnag
      have e1 : charAt p (i - δ) = charAt t (s + δ + (i - δ)) :=
        hpt (i - δ) (by omega)
      have e2 : s + δ + (i - δ) = s + i := by omega
      have e3 : charAt p i = charAt t (s + i) := hall i hi1
      exact hi4 (by rw [e1, e2, ← e3])

/-- One step of the filtered-range decomposition used to follow the scanning
loop: provided no offset strictly inside `(s, s+δ)` satisfies `q`. -/
lemma filter_range'_step (q : Nat → Bool) (s N δ : Nat) (hsN : s < N) (hδ : 1 ≤ δ)
    (hsafe : ∀ a, s < a → a < s + δ → q a = false) :
    (List.range' s (N - s)).filter q
      = (if q s then [s] else []) ++ (List.range' (s + δ) (N - (s + δ))).filter q := by
  have hδ'pos : 1 ≤ min δ (N - s) := by omega
  have hsplit : List.range' s (N - s)
      = List.range' s (min δ (N - s)) ++
        List.range' (s + min δ (N - s)) (N - s - min δ (N - s)) := by
    have happ := List.range'_append s (min δ (N - s)) (N - s - min δ (N - s)) 1
    rw [one_mul] at happ
    have harith : N - s - min δ (N - s) + min δ (N - s) = N - s := by omega
    rw [harith] at happ
    exact happ.symm
  have hhead : List.range' s (min δ (N - s))
      = s :: List.range' (s + 1) (min δ (N - s) - 1) := by
    have h1 : min δ (N - s) = (min δ (N - s) - 1) + 1 := by omega
    conv_lhs => rw [h1]
    rw [List.range'_succ]
  have hmid : (List.range' (s + 1) (min δ (N - s) - 1)).filter q = [] := by
    rw [List.filter_eq_nil_iff]
    intro a ha
    rw [List.mem_range'] at ha
    obtain ⟨i, hi, rfl⟩ := ha
    have h2 := hsafe (s + 1 + i) (by omega) (by omega)
    simpa using h2
  have htail : (List.range' (s + min δ (N - s)) (N - s - min δ (N - s))).filter q
      = (List.range' (s + δ) (N - (s + δ))).filter q := by
    by_cases hcase : δ ≤ N - s
    · have hmin : min δ (N - s) = δ := min_eq_left hcase
      rw [hmin]
      have : N - s - δ = N - (s + δ) := by omega
      rw [this]
    · have h0 : N - s - min δ (N - s) = 0 := by omega
      have h0' : N - (s + δ) = 0 := by omega
      rw [h0, h0', List.range'_zero, List.range'_zero]
  rw [hsplit, List.filter_append, hhead, List.filter_cons, hmid, htail]

/-- The occurrences component of the scanning loop equals the brute-force
occurrence list of the remaining offsets. -/
lemma bmLoop_occ (p t : List Char) :
    ∀ fuel s, t.length + 1 ≤ s + fuel →
      (bmLoop p t fuel s).1
        = (List.range' s (t.length + 1 - p.length - s)).filter (matchesAt p t) := by
  intro fuel
  induction fuel with
  | zero =>
    intro s h
    have h0 : t.length + 1 - p.length - s = 0 := by omega
    simp [bmLoop, h0]
  | succ fuel ih =>
    intro s h
    rw [bmLoop]
    by_cases hc : s + p.length ≤ t.length
    · rw [if_pos hc]
      have hδ1 : 1 ≤ shiftAt p t s := shiftAt_pos p t s
      have hrec := ih (s + shiftAt p t s) (by omega)
      have hsN : s < t.length + 1 - p.length := by omega
      have hstep := filter_range'_step (matchesAt p t) s (t.length + 1 - p.length)
        (shiftAt p t s) hsN hδ1
        (fun a ha1 ha2 => by
          have := shift_safe p t s (a - s) hc (by omega) (by omega)
          have he : s + (a - s) = a := by omega
          rw [he] at this
          exact this)
      simp only []
      rw [hrec]
      have hiso := isNone_mismatchIdx_eq_matchesAt (p := p) (t := t) (s := s) hc
      by_cases hq : matchesAt p t s = true
      · rw [hstep, if_pos hq]
        rw [hiso, hq]
        simp only [if_true, List.singleton_append]
      · rw [hstep, if_neg hq]
        rw [hiso, Bool.eq_false_iff.mpr hq]
        simp only [Bool.false_eq_true, if_false, List.nil_append]
    · rw [if_neg hc]
      have h0 : t.length + 1 - p.length - s = 0 := by omega
      simp [h0]

/-- `query p t` returns exactly the brute-force occurrence list. -/
lemma query_occ (p t : List Char) : (query p t).1 = bruteList p t := by
  unfold query bruteList
  rw [bmLoop_occ p t (t.length + 1) 0 (by omega), List.range_eq_range']
  simp

/-- Membership form of `query_occ`. -/
lemma query_mem (p t : List Char) (o : Nat) :
    o ∈ (query p t).1 ↔ o + p.length ≤ t.length ∧ matchesAt p t o = true := by
  rw [query_occ]
  unfold bruteList
  rw [List.mem_filter, List.mem_range]
  constructor
  · rintro ⟨h1, h2⟩; exact ⟨by omega, h2⟩
  · rintro ⟨h1, h2⟩; exact ⟨by omega, h2⟩

lemma alignsAux_head (p t : List Char) :
    ∀ fuel s x, (alignsAux p t fuel s).head? = some x → x = s := by
  intro fuel
  cases fuel with
  | zero => intro s x hx; simp [alignsAux] at hx
  | succ fuel =>
    intro s x hx
    rw [alignsAux] at hx
    by_cases hc : s + p.length ≤ t.length
    · rw [if_pos hc] at hx
      simp at hx
      omega
    · rw [if_neg hc] at hx
      simp at hx

lemma alignsAux_chain (p t : List Char) :
    ∀ fuel s, (alignsAux p t fuel s).Chain' (· < ·) := by
  intro fuel
  induction fuel with
  | zero => intro s; simp [alignsAux]
  | succ fuel ih =>
    intro s
    rw [alignsAux]
    by_cases hc : s + p.length ≤ t.length
    · rw [if_pos hc]
      rw [List.chain'_cons']
      refine ⟨?_, ih (s + shiftAt p t s)⟩
      intro y hy
      have := alignsAux_head p t fuel (s + shiftAt p t s) y hy
      have hδ := shiftAt_pos p t s
      omega
    · rw [if_neg hc]
      simp

lemma alignsAux_length (p t : List Char) :
    ∀ fuel s, (alignsAux p t fuel s).length ≤ fuel := by
  intro fuel
  induction fuel with
  | zero => intro s; simp [alignsAux]
  | succ fuel ih =>
    intro s
    rw [alignsAux]
    by_cases hc : s + p.length ≤ t.length
    · rw [if_pos hc]
      simp only [List.length_cons]
      exact Nat.succ_le_succ (ih (s + shiftAt p t s))
    · rw [if_neg hc]
      simp

lemma bmLoop_count (p t : List Char) :
    ∀ fuel s, (bmLoop p t fuel s).2.1 = (alignsAux p t fuel s).length := by
  intro fuel
  induction fuel with
  | zero => intro s; simp [bmLoop, alignsAux]
  | succ fuel ih =>
    intro s
    rw [bmLoop, alignsAux]
    by_cases hc : s + p.length ≤ t.length
    · rw [if_pos hc, if_pos hc]
      simp only [List.length_cons]
      rw [ih (s + shiftAt p t s)]
    · rw [if_neg hc, if_neg hc]
      simp

lemma bmLoopL02_count (p t : List Char) :
    ∀ fuel s, (bmLoopL02 p t fuel s).2.1
      = s + ((alignsAux p t fuel s).map (shiftAt p t)).sum := by
  intro fuel
  induction fuel with
  | zero => intro s; simp [bmLoopL02, alignsAux]
  | succ fuel ih =>
    intro s
    rw [bmLoopL02, alignsAux]
    by_cases hc : s + p.length ≤ t.length
    · rw [if_pos hc, if_pos hc]
      simp only [List.map_cons, List.sum_cons]
      rw [ih (s + shiftAt p t s)]
      omega
    · rw [if_neg hc, if_neg hc]
      simp

/-- C1: for every pattern `P` with `1 ≤ len(P) ≤ len(T)` and text `T`, the
first component of `BoyerMooreExact.query(T)` is exactly the brute-force list
of offsets `i` with `T[i:i+len(P)] == P`, each reported once and in
increasing order. -/
theorem bm_query_eq_bruteforce (p t : List Char)
    (h1 : 1 ≤ p.length) (h2 : p.length ≤ t.length) :
    (query p t).1 = bruteList p t :=
  query_occ p t

theorem bm_query_eq_bruteforce_witness :
    (query ['A'] ['A', 'C', 'A']).1 = [0, 2] :=
  (bm_query_eq_bruteforce ['A'] ['A', 'C', 'A'] (by decide) (by decide)).trans
    (by decide)

/-- C4: at every alignment the applied shift is `≥ 1` (on a mismatch it is
`max(bad_char_shift, good_suffix_shift, 1)`; on a full match
`max(shift, match_skip())` with `shift = 1`), hence the sequence of visited
`alignment_start_idx` values is strictly increasing and the loop runs at most
`len(T) + 1` iterations (termination). -/
theorem bm_shift_positive_strictly_increasing (p t : List Char) :
    (∀ s, 1 ≤ shiftAt p t s) ∧ (alignsList p t).Chain' (· < ·) ∧
      (alignsList p t).length ≤ t.length + 1 :=
  ⟨fun s => shiftAt_pos p t s, alignsAux_chain p t (t.length + 1) 0,
    alignsAux_length p t (t.length + 1) 0⟩

/-- C5 counterexample: with the empty pattern the matcher raises nothing and
returns a non-empty occurrence list (every offset), contradicting
"fails with InvalidInput ... returning an empty result rather than
scanning". -/
theorem bm_query_empty_pattern_counterexample :
    (query ([] : List Char) ['A']).1 ≠ [] := by decide

/-- C5 amended: the exact matcher raises no exception.  When
`len(P) > len(T)` it returns `([], 0, 0)` without trying any alignment; when
`len(P) = 0` the scan runs and reports every offset `0..len(T)`.  (Alphabet
validation lives in the preprocessing module, which is outside the source
excerpt.) -/
theorem bm_query_degenerate_inputs (p t : List Char) :
    (t.length < p.length → query p t = ([], 0, 0)) ∧
    (p = [] → (query p t).1 = List.range (t.length + 1)) := by
  constructor
  · intro h
    unfold query
    rw [bmLoop]
    rw [if_neg (by omega)]
  · intro hp
    subst hp
    rw [query_occ]
    unfold bruteList
    have hall : ∀ a ∈ List.range (t.length + 1 - List.length ([] : List Char)),
        matchesAt [] t a = true := by
      intro a _
      simp [matchesAt]
    rw [List.filter_eq_self.mpr hall]
    simp

theorem bm_query_degenerate_inputs_witness :
    query ['A', 'A'] ['A'] = ([], 0, 0) ∧
      (query ([] : List Char) ['C', 'G']).1 = List.range 3 :=
  ⟨(bm_query_degenerate_inputs ['A', 'A'] ['A']).1 (by decide),
    (bm_query_degenerate_inputs ([] : List Char) ['C', 'G']).2 rfl⟩

/-- C7 counterexample: on `P = "TTAA"`, `T = "ACGTACGTATTAAGGG"` the matcher
does not return `[10]` (the spec's concrete expectation). -/
theorem bm_query_ttaa_counterexample :
    (query ['T', 'T', 'A', 'A']
      ['A', 'C', 'G', 'T', 'A', 'C', 'G', 'T', 'A', 'T', 'T', 'A', 'A', 'G', 'G', 'G']).1
      ≠ [10] := by decide

/-- C7 amended: on `P = "TTAA"`, `T = "ACGTACGTATTAAGGG"` the exact matcher
returns the occurrence list `[9]` (the unique offset where "TTAA" occurs). -/
theorem bm_query_ttaa :
    (query ['T', 'T', 'A', 'A']
      ['A', 'C', 'G', 'T', 'A', 'C', 'G', 'T', 'A', 'T', 'T', 'A', 'A', 'G', 'G', 'G']).1
      = [9] := by decide

/-- C8 counterexample: in the L02 implementation `num_alignments_tried` is the
final `alignment_start_idx`, not the number of loop iterations: on
`P = "AA"`, `T = "ACAA"` it returns 3 while the loop runs 2 iterations. -/
theorem alignments_tried_l02_counterexample :
    (queryL02 ['A', 'A'] ['A', 'C', 'A', 'A']).2.1
      ≠ (alignsList ['A', 'A'] ['A', 'C', 'A', 'A']).length := by decide

/-- C10: when `int(round(len(p)/(m+1))) = 0` the first partition is empty, the
partition loop breaks immediately, and `query_bm` returns `([], 0)` no matter
whether the pattern occurs within the budget. -/
theorem query_bm_zero_partition_length (p t : List Char) (m : Nat)
    (h : pyRound p.length (m + 1) = 0) :
    query_bm p t m = ([], 0) := by
  unfold query_bm
  rw [h]
  rw [qbLoop]
  norm_num

theorem query_bm_zero_partition_length_witness :
    query_bm ['A'] ['A', 'A', 'A'] 1 = ([], 0) ∧ hamming ['A'] ['A', 'A', 'A'] 0 = 0 :=
  ⟨query_bm_zero_partition_length ['A'] ['A', 'A', 'A'] 1 (by decide), by decide⟩

lemma ecount_le_iff (f : Nat → Bool) (m : Nat) :
    ∀ l acc, ecount f m l acc ≤ m ↔ acc + l.countP f ≤ m := by
  intro l
  induction l with
  | nil => intro acc; simp [ecount]
  | cons j js ih =>
    intro acc
    rw [ecount]
    by_cases hf : f j = true
    · rw [if_pos hf, List.countP_cons_of_pos _ _ hf]
      by_cases hm : m < acc + 1
      · rw [if_pos hm]
        constructor
        · intro hcontra; omega
        · intro hcontra; omega
      · rw [if_neg hm, ih (acc + 1)]
        omega
    · rw [if_neg hf, ih acc, List.countP_cons_of_neg _ _ hf]

lemma ecount_eq_of_le (f : Nat → Bool) (m : Nat) :
    ∀ l acc, acc + l.countP f ≤ m → ecount f m l acc = acc + l.countP f := by
  intro l
  induction l with
  | nil => intro acc _; simp [ecount]
  | cons j js ih =>
    intro acc hle
    rw [ecount]
    by_cases hf : f j = true
    · rw [List.countP_cons_of_pos _ _ hf] at hle
      rw [if_pos hf, if_neg (by omega)]
      rw [ih (acc + 1) (by omega), List.countP_cons_of_pos _ _ hf]
      omega
    · rw [List.countP_cons_of_neg _ _ hf] at hle
      rw [if_neg hf, ih acc hle, List.countP_cons_of_neg _ _ hf]

/-- The accept condition of the verification step holds iff the exact number
of mismatches outside the partition is within the budget. -/
lemma ecount_accept_iff (f : Nat → Bool) (m : Nat) (l1 l2 : List Nat) :
    ecount f m l2 (ecount f m l1 0) ≤ m ↔ l1.countP f + l2.countP f ≤ m := by
  by_cases hc1 : l1.countP f ≤ m
  · have h1 : ecount f m l1 0 = l1.countP f := by
      have := ecount_eq_of_le f m l1 0 (by omega)
      simpa using this
    rw [h1, ecount_le_iff]
  · have h4 : ¬ ecount f m l1 0 ≤ m := by
      rw [ecount_le_iff]
      omega
    rw [ecount_le_iff]
    constructor
    · intro hcontra
      exact absurd (by omega : ecount f m l1 0 ≤ m) h4
    · intro hcontra
      omega

/-- Splitting `range' 0 |p|` around the partition `[ps, pe)`. -/
lemma range'_threeSplit {n ps pe : Nat} (h1 : ps ≤ pe) (h2 : pe ≤ n) :
    List.range' 0 n
      = List.range' 0 ps ++ List.range' ps (pe - ps) ++ List.range' pe (n - pe) := by
  have ha : List.range' 0 ps ++ List.range' ps (pe - ps) = List.range' 0 pe := by
    have := List.range'_append 0 ps (pe - ps) 1
    rw [one_mul] at this
    simp only [Nat.zero_add] at this
    rw [this]
    congr 1
    omega
  rw [ha]
  have hb := List.range'_append 0 pe (n - pe) 1
  rw [one_mul] at hb
  simp only [Nat.zero_add] at hb
  rw [hb]
  congr 1
  omega

/-- The Hamming distance decomposes around the partition `[ps, pe)`. -/
lemma hamming_split (p t : List Char) (a ps pe : Nat) (h1 : ps ≤ pe)
    (h2 : pe ≤ p.length) :
    hamming p t a
      = (List.range ps).countP (fun j => decide (charAt p j ≠ charAt t (a + j)))
        + (List.range' ps (pe - ps)).countP (fun j => decide (charAt p j ≠ charAt t (a + j)))
        + (List.range' pe (p.length - pe)).countP (fun j => decide (charAt p j ≠ charAt t (a + j))) := by
  unfold hamming
  rw [List.range_eq_range', range'_threeSplit h1 h2, List.countP_append, List.countP_append]
  rw [List.range_eq_range']

lemma sub_length (p : List Char) {ps pe : Nat} (hps : ps ≤ pe)
    (hpe : pe ≤ p.length) : ((p.drop ps).take (pe - ps)).length = pe - ps := by
  simp only [List.length_take, List.length_drop]
  omega

lemma charAt_sub (p : List Char) {ps pe d : Nat} (hd : d < pe - ps)
    (hpe : pe ≤ p.length) :
    charAt ((p.drop ps).take (pe - ps)) d = charAt p (ps + d) :=
  charAt_drop_take hd (by omega)

/-- Any alignment accepted by the verification step is within range and within
the mismatch budget. -/
lemma accepted_valid (p t : List Char) (m ps pe o : Nat)
    (hps : ps ≤ pe) (hpe : pe ≤ p.length)
    (ho : o ∈ (query ((p.drop ps).take (pe - ps)) t).1)
    (h1 : ¬ o < ps) (h2 : ¬ t.length < o - ps + p.length)
    (h3 : ecount (fun j => decide (charAt p j ≠ charAt t (o - ps + j))) m
        (List.range' pe (p.length - pe))
        (ecount (fun j => decide (charAt p j ≠ charAt t (o - ps + j))) m
          (List.range ps) 0) ≤ m) :
    (o - ps) + p.length ≤ t.length ∧ hamming p t (o - ps) ≤ m := by
  push_neg at h1 h2
  refine ⟨h2, ?_⟩
  rw [ecount_accept_iff] at h3
  obtain ⟨holen, homatch⟩ := (query_mem _ t o).mp ho
  have hpt := (matchesAt_true_iff holen).mp homatch
  have hmid : (List.range' ps (pe - ps)).countP
      (fun j => decide (charAt p j ≠ charAt t (o - ps + j))) = 0 := by
    rw [List.countP_eq_zero]
    intro j hj
    rw [List.mem_range'] at hj
    obtain ⟨d, hd, rfl⟩ := hj
    simp only [one_mul]
    have hdlt : d < ((p.drop ps).take (pe - ps)).length := by
      rw [sub_length p hps hpe]; omega
    have e1 := hpt d hdlt
    have e2 : charAt ((p.drop ps).take (pe - ps)) d = charAt p (ps + d) :=
      charAt_sub p (by omega) hpe
    have e3 : o - ps + (ps + d) = o + d := by omega
    rw [e3]
    simp only [decide_eq_true_eq, not_not]
    rw [← e2, e1]
  have hsplit := hamming_split p t (o - ps) ps pe hps hpe
  omega

lemma sinsert_subset (a : Nat) (l : List Nat) : l ⊆ sinsert a l := by
  unfold sinsert
  by_cases h : a ∈ l
  · rw [if_pos h]
    exact fun _ hx => hx
  · rw [if_neg h]
    exact List.subset_cons_self a l

lemma mem_sinsert_self (a : Nat) (l : List Nat) : a ∈ sinsert a l := by
  unfold sinsert
  by_cases h : a ∈ l
  · rw [if_pos h]; exact h
  · rw [if_neg h]; exact List.mem_cons_self a l

lemma procMatches_mono (p t : List Char) (m ps pe : Nat) :
    ∀ os occ hits, occ ⊆ (procMatches p t m ps pe os occ hits).1 := by
  intro os
  induction os with
  | nil =>
    intro occ hits
    rw [procMatches]
    exact fun _ hx => hx
  | cons o os ih =>
    intro occ hits
    rw [procMatches]
    by_cases hb1 : o < ps
    · rw [if_pos hb1]; exact ih occ (hits + 1)
    · rw [if_neg hb1]
      by_cases hb2 : t.length < o - ps + p.length
      · rw [if_pos hb2]; exact ih occ (hits + 1)
      · rw [if_neg hb2]
        by_cases hb3 : ecount (fun j => decide (charAt p j ≠ charAt t (o - ps + j))) m
            (List.range' pe (p.length - pe))
            (ecount (fun j => decide (charAt p j ≠ charAt t (o - ps + j))) m
              (List.range ps) 0) ≤ m
        · rw [if_pos hb3]
          exact List.Subset.trans (sinsert_subset (o - ps) occ) (ih _ (hits + 1))
        · rw [if_neg hb3]; exact ih occ (hits + 1)

lemma procMatches_sound (p t : List Char) (m ps pe : Nat)
    (hps : ps ≤ pe) (hpe : pe ≤ p.length) :
    ∀ os occ hits,
      (∀ o ∈ os, o ∈ (query ((p.drop ps).take (pe - ps)) t).1) →
      (∀ a ∈ occ, a + p.length ≤ t.length ∧ hamming p t a ≤ m) →
      ∀ a ∈ (procMatches p t m ps pe os occ hits).1,
        a + p.length ≤ t.length ∧ hamming p t a ≤ m := by
  intro os
  induction os with
  | nil =>
    intro occ hits _ hocc a ha
    rw [procMatches] at ha
    exact hocc a ha
  | cons o os ih =>
    intro occ hits hos hocc a ha
    have hos' : ∀ o' ∈ os, o' ∈ (query ((p.drop ps).take (pe - ps)) t).1 :=
      fun o' ho' => hos o' (List.mem_cons_of_mem o ho')
    rw [procMatches] at ha
    by_cases hb1 : o < ps
    · rw [if_pos hb1] at ha; exact ih occ (hits + 1) hos' hocc a ha
    · rw [if_neg hb1] at ha
      by_cases hb2 : t.length < o - ps + p.length
      · rw [if_pos hb2] at ha; exact ih occ (hits + 1) hos' hocc a ha
      · rw [if_neg hb2] at ha
        by_cases hb3 : ecount (fun j => decide (charAt p j ≠ charAt t (o - ps + j))) m
            (List.range' pe (p.length - pe))
            (ecount (fun j => decide (charAt p j ≠ charAt t (o - ps + j))) m
              (List.range ps) 0) ≤ m
        · rw [if_pos hb3] at ha
          refine ih _ (hits + 1) hos' ?_ a ha
          intro b hb
          unfold sinsert at hb
          by_cases hmem : (o - ps) ∈ occ
          · rw [if_pos hmem] at hb; exact hocc b hb
          · rw [if_neg hmem] at hb
            rcases List.mem_cons.mp hb with rfl | hb'
            · exact accepted_valid p t m ps pe o hps hpe
                (hos o (List.mem_cons_self o os)) hb1 hb2 hb3
            · exact hocc b hb'
        · rw [if_neg hb3] at ha; exact ih occ (hits + 1) hos' hocc a ha

lemma procMatches_adds (p t : List Char) (m ps pe : Nat) :
    ∀ os occ hits o, o ∈ os → ¬ o < ps → ¬ t.length < o - ps + p.length →
      ecount (fun j => decide (charAt p j ≠ charAt t (o - ps + j))) m
          (List.range' pe (p.length - pe))
          (ecount (fun j => decide (charAt p j ≠ charAt t (o - ps + j))) m
            (List.range ps) 0) ≤ m →
      (o - ps) ∈ (procMatches p t m ps pe os occ hits).1 := by
  intro os
  induction os with
  | nil => intro occ hits o h; simp at h
  | cons o' os ih =>
    intro occ hits o hmem h1 h2 h3
    rw [procMatches]
    rcases List.mem_cons.mp hmem with rfl | hmem'
    · rw [if_neg h1, if_neg h2, if_pos h3]
      exact procMatches_mono p t m ps pe os _ (hits + 1) (mem_sinsert_self _ occ)
    · by_cases hb1 : o' < ps
      · rw [if_pos hb1]; exact ih occ (hits + 1) o hmem' h1 h2 h3
      · rw [if_neg hb1]
        by_cases hb2 : t.length < o' - ps + p.length
        · rw [if_pos hb2]; exact ih occ (hits + 1) o hmem' h1 h2 h3
        · rw [if_neg hb2]
          by_cases hb3 : ecount (fun j => decide (charAt p j ≠ charAt t (o' - ps + j))) m
              (List.range' pe (p.length - pe))
              (ecount (fun j => decide (charAt p j ≠ charAt t (o' - ps + j))) m
                (List.range ps) 0) ≤ m
          · rw [if_pos hb3]; exact ih _ (hits + 1) o hmem' h1 h2 h3
          · rw [if_neg hb3]; exact ih occ (hits + 1) o hmem' h1 h2 h3

lemma qbLoop_mono (p t : List Char) (m L : Nat) :
    ∀ rem i occ hits, occ ⊆ (qbLoop p t m L rem i occ hits).1 := by
  intro rem
  induction rem with
  | zero =>
    intro i occ hits
    rw [qbLoop]
    exact fun _ hx => hx
  | succ rem ih =>
    intro i occ hits
    rw [qbLoop]
    by_cases hemp : ((p.drop (i * L)).take (min (i * L + L) p.length - i * L)).isEmpty = true
    · rw [if_pos hemp]
      exact fun _ hx => hx
    · rw [if_neg hemp]
      exact List.Subset.trans (procMatches_mono p t m (i * L) (min (i * L + L) p.length) _ occ hits)
        (ih (i + 1) _ _)

lemma qbLoop_sound (p t : List Char) (m L : Nat) :
    ∀ rem i occ hits,
      (∀ a ∈ occ, a + p.length ≤ t.length ∧ hamming p t a ≤ m) →
      ∀ a ∈ (qbLoop p t m L rem i occ hits).1,
        a + p.length ≤ t.length ∧ hamming p t a ≤ m := by
  intro rem
  induction rem with
  | zero =>
    intro i occ hits hocc a ha
    rw [qbLoop] at ha
    exact hocc a ha
  | succ rem ih =>
    intro i occ hits hocc a ha
    rw [qbLoop] at ha
    by_cases hemp : ((p.drop (i * L)).take (min (i * L + L) p.length - i * L)).isEmpty = true
    · rw [if_pos hemp] at ha; exact hocc a ha
    · rw [if_neg hemp] at ha
      have hlen : 0 < ((p.drop (i * L)).take (min (i * L + L) p.length - i * L)).length := by
        rcases Nat.eq_zero_or_pos ((p.drop (i * L)).take (min (i * L + L) p.length - i * L)).length with h0 | h0
        · exact absurd (by rwa [List.isEmpty_iff, ← List.length_eq_zero]) hemp
        · exact h0
      have hps : i * L ≤ min (i * L + L) p.length := by
        simp only [List.length_take, List.length_drop] at hlen
        omega
      refine ih (i + 1) _ _ ?_ a ha
      exact procMatches_sound p t m (i * L) (min (i * L + L) p.length) hps
        (min_le_right _ _) _ occ hits (fun o ho => ho) hocc

lemma qbLoop_complete (p t : List Char) (m L : Nat) (hL : 1 ≤ L)
    (hcov : m * L < p.length) (istar o : Nat) (histar : istar ≤ m)
    (h1 : ¬ o < istar * L)
    (h2 : ¬ t.length < o - istar * L + p.length)
    (ho : o ∈ (query ((p.drop (istar * L)).take
        (min (istar * L + L) p.length - istar * L)) t).1)
    (h3 : ecount (fun j => decide (charAt p j ≠ charAt t (o - istar * L + j))) m
        (List.range' (min (istar * L + L) p.length)
          (p.length - min (istar * L + L) p.length))
        (ecount (fun j => decide (charAt p j ≠ charAt t (o - istar * L + j))) m
          (List.range (istar * L)) 0) ≤ m) :
    ∀ rem i occ hits, i + rem = m + 1 → i ≤ istar →
      (o - istar * L) ∈ (qbLoop p t m L rem i occ hits).1 := by
  intro rem
  induction rem with
  | zero => intro i occ hits hsum hle; omega
  | succ rem ih =>
    intro i occ hits hsum hle
    rw [qbLoop]
    have hiL : i * L < p.length := by
      calc i * L ≤ m * L := Nat.mul_le_mul_right L (le_trans hle histar)
        _ < p.length := hcov
    have hsubne : ¬ ((p.drop (i * L)).take (min (i * L + L) p.length - i * L)).isEmpty = true := by
      intro hcontra
      rw [List.isEmpty_iff] at hcontra
      have hlen := congrArg List.length hcontra
      simp only [List.length_take, List.length_drop, List.length_nil] at hlen
      omega
    rw [if_neg hsubne]
    rcases eq_or_lt_of_le hle with heq | hlt
    · subst heq
      have hin := procMatches_adds p t m (i * L) (min (i * L + L) p.length)
        (query ((p.drop (i * L)).take (min (i * L + L) p.length - i * L)) t).1
        occ hits o ho h1 h2 h3
      exact qbLoop_mono p t m L rem (i + 1) _ _ hin
    · exact ih (i + 1) _ _ (by omega) (by omega)

lemma list_length_le_sum (g : Nat → Nat) :
    ∀ l : List Nat, (∀ x ∈ l, 1 ≤ g x) → l.length ≤ (l.map g).sum := by
  intro l
  induction l with
  | nil => intro _; simp
  | cons x xs ih =>
    intro h
    simp only [List.length_cons, List.map_cons, List.sum_cons]
    have h1 := h x (List.mem_cons_self x xs)
    have h2 := ih (fun y hy => h y (List.mem_cons_of_mem x hy))
    omega

/-- The `m+1` partitions tile `[0, min((m+1)·L, |p|))`, so the partition
mismatch counts sum to the mismatch count of that prefix. -/
lemma partition_tiling (p t : List Char) (a L m : Nat) (hcov : m * L < p.length) :
    ∀ k, k ≤ m + 1 →
      ((List.range k).map (fun i =>
        (List.range' (i * L) (min (i * L + L) p.length - i * L)).countP
          (fun j => decide (charAt p j ≠ charAt t (a + j))))).sum
      = (List.range' 0 (min (k * L) p.length)).countP
          (fun j => decide (charAt p j ≠ charAt t (a + j))) := by
  intro k
  induction k with
  | zero => simp
  | succ k ih =>
    intro hk
    have hk' : k ≤ m := by omega
    have hkL : k * L < p.length := by
      calc k * L ≤ m * L := Nat.mul_le_mul_right L hk'
        _ < p.length := hcov
    rw [List.range_succ, List.map_append, List.sum_append, ih (by omega)]
    simp only [List.map_cons, List.map_nil, List.sum_cons, List.sum_nil, Nat.add_zero]
    have hmin : min (k * L) p.length = k * L := min_eq_left (le_of_lt hkL)
    rw [hmin]
    have happ := List.range'_append 0 (k * L) (min (k * L + L) p.length - k * L) 1
    rw [one_mul] at happ
    simp only [Nat.zero_add] at happ
    rw [← List.countP_append, happ]
    have hsucc : (k + 1) * L = k * L + L := by ring
    have harith2 : min (k * L + L) p.length - k * L + k * L
        = min (k * L + L) p.length := by
      set X := k * L with hX
      omega
    rw [hsucc, harith2]

/-- Pigeonhole: if the Hamming distance is within the budget, some partition
is mismatch-free. -/
lemma exists_clean_partition (p t : List Char) (a L m : Nat)
    (hcov : m * L < p.length) (hham : hamming p t a ≤ m) :
    ∃ i, i ≤ m ∧
      (List.range' (i * L) (min (i * L + L) p.length - i * L)).countP
        (fun j => decide (charAt p j ≠ charAt t (a + j))) = 0 := by
  by_contra hno
  push_neg at hno
  have hsum := partition_tiling p t a L m hcov (m + 1) (le_refl _)
  have hge := list_length_le_sum
    (fun i => (List.range' (i * L) (min (i * L + L) p.length - i * L)).countP
      (fun j => decide (charAt p j ≠ charAt t (a + j))))
    (List.range (m + 1))
    (fun x hx => by
      have hxm : x ≤ m := by
        rw [List.mem_range] at hx
        omega
      have h := hno x hxm
      simpa using Nat.one_le_iff_ne_zero.mpr h)
  have hle2 : (List.range' 0 (min ((m + 1) * L) p.length)).countP
      (fun j => decide (charAt p j ≠ charAt t (a + j))) ≤ hamming p t a := by
    unfold hamming
    rw [List.range_eq_range']
    have happ := List.range'_append 0 (min ((m + 1) * L) p.length)
      (p.length - min ((m + 1) * L) p.length) 1
    rw [one_mul] at happ
    simp only [Nat.zero_add] at happ
    have harith : p.length - min ((m + 1) * L) p.length + min ((m + 1) * L) p.length
        = p.length := by
      set X := (m + 1) * L with hX
      omega
    rw [harith] at happ
    rw [← happ, List.countP_append]
    omega
  rw [List.length_range] at hge
  omega

/-- C2 counterexample: `P = "AC"`, `T = "GG"`, `m = 2`: offset 0 is within
range with Hamming distance `2 ≤ m`, yet `query_bm` returns no occurrence
(the third partition is empty, so the loop breaks after only two
partitions). -/
theorem query_bm_incomplete_counterexample :
    (query_bm ['A', 'C'] ['G', 'G'] 2).1 = [] ∧
      0 + (['A', 'C'] : List Char).length ≤ (['G', 'G'] : List Char).length ∧
      hamming ['A', 'C'] ['G', 'G'] 0 ≤ 2 := by decide

/-- C2 amended: the occurrence set of `query_bm` never contains an offset
whose Hamming distance to the text window exceeds `m` (soundness,
unconditional); and whenever `partition_length = int(round(len(p)/(m+1)))` is
at least 1 and `m * partition_length < len(p)` (so all `m+1` partitions are
non-empty and the loop never breaks early), it also contains every offset `a`
with `a + len(p) ≤ len(t)` and Hamming distance at most `m` (completeness).
Without that side condition valid occurrences can be missed (see the
counterexample). -/
theorem query_bm_correct (p t : List Char) (m : Nat) (a : Nat) :
    (a ∈ (query_bm p t m).1 → a + p.length ≤ t.length ∧ hamming p t a ≤ m) ∧
      (1 ≤ pyRound p.length (m + 1) → m * pyRound p.length (m + 1) < p.length →
        a + p.length ≤ t.length → hamming p t a ≤ m → a ∈ (query_bm p t m).1) := by
  unfold query_bm
  rw [(List.perm_insertionSort (· ≤ ·) _).mem_iff]
  constructor
  · intro ha
    exact qbLoop_sound p t m (pyRound p.length (m + 1)) (m + 1) 0 [] 0
      (by simp) a ha
  · intro hL hcov hrange hham
    obtain ⟨istar, histar, hclean⟩ :=
      exists_clean_partition p t a (pyRound p.length (m + 1)) m hcov hham
    set L := pyRound p.length (m + 1) with hLdef
    set ps := istar * L with hpsdef
    set pe := min (ps + L) p.length with hpedef
    have hpsP : ps < p.length := by
      calc ps ≤ m * L := Nat.mul_le_mul_right L histar
        _ < p.length := hcov
    have hpsle : ps ≤ pe := by omega
    have hpele : pe ≤ p.length := min_le_right _ _
    have hsublen : ((p.drop ps).take (pe - ps)).length = pe - ps :=
      sub_length p hpsle hpele
    have hmatch : matchesAt ((p.drop ps).take (pe - ps)) t (a + ps) = true := by
      rw [matchesAt_true_iff (by rw [hsublen]; omega)]
      intro d hd
      rw [hsublen] at hd
      have e2 : charAt ((p.drop ps).take (pe - ps)) d = charAt p (ps + d) :=
        charAt_sub p hd hpele
      rw [e2]
      have hmemd : ps + d ∈ List.range' ps (pe - ps) := by
        rw [List.mem_range']
        exact ⟨d, hd, by omega⟩
      have hcl := List.countP_eq_zero.mp hclean (ps + d) hmemd
      simp only [decide_eq_true_eq, not_not] at hcl
      rw [hcl]
      congr 1
      omega
    have ho : (a + ps) ∈ (query ((p.drop ps).take (pe - ps)) t).1 :=
      (query_mem _ t _).mpr ⟨by rw [hsublen]; omega, hmatch⟩
    have h1 : ¬ (a + ps) < ps := by omega
    have h2 : ¬ t.length < (a + ps) - ps + p.length := by omega
    have h3 : ecount (fun j => decide (charAt p j ≠ charAt t ((a + ps) - ps + j))) m
        (List.range' pe (p.length - pe))
        (ecount (fun j => decide (charAt p j ≠ charAt t ((a + ps) - ps + j))) m
          (List.range ps) 0) ≤ m := by
      simp only [Nat.add_sub_cancel]
      rw [ecount_accept_iff]
      have hsplit := hamming_split p t a ps pe hpsle hpele
      omega
    have hres := qbLoop_complete p t m L hL hcov istar (a + ps) histar h1 h2 ho h3
      (m + 1) 0 [] 0 (by omega) (by omega)
    simpa [Nat.add_sub_cancel] using hres

theorem query_bm_correct_witness :
    (0 + (['A', 'C'] : List Char).length ≤ (['A', 'G'] : List Char).length ∧
        hamming ['A', 'C'] ['A', 'G'] 0 ≤ 1) ∧
      0 ∈ (query_bm ['A', 'C'] ['A', 'G'] 1).1 :=
  ⟨(query_bm_correct ['A', 'C'] ['A', 'G'] 1 0).1 (by decide),
    (query_bm_correct ['A', 'C'] ['A', 'G'] 1 0).2 (by decide) (by decide)
      (by decide) (by decide)⟩

lemma listLtB_irrefl : ∀ l : List Char, listLtB l l = false := by
  intro l
  induction l with
  | nil => rfl
  | cons a as ih =>
    rw [listLtB, if_neg (lt_irrefl a), if_neg (lt_irrefl a)]
    exact ih

lemma listLtB_trans :
    ∀ a b c : List Char, listLtB a b = true → listLtB b c = true →
      listLtB a c = true := by
  intro a
  induction a with
  | nil =>
    intro b c hab hbc
    cases b with
    | nil => simp [listLtB] at hab
    | cons y ys =>
      cases c with
      | nil => simp [listLtB] at hbc
      | cons z zs => rfl
  | cons x xs ih =>
    intro b c hab hbc
    cases b with
    | nil => simp [listLtB] at hab
    | cons y ys =>
      cases c with
      | nil => simp [listLtB] at hbc
      | cons z zs =>
        rw [listLtB] at hab hbc ⊢
        by_cases h1 : x < y
        · by_cases h2 : y < z
          · rw [if_pos (lt_trans h1 h2)]
          · rw [if_neg h2] at hbc
            by_cases h3 : z < y
            · rw [if_pos h3] at hbc
              exact absurd hbc (by simp)
            · have heq : y = z := le_antisymm (not_lt.mp h3) (not_lt.mp h2)
              subst heq
              rw [if_pos h1]
        · rw [if_neg h1] at hab
          by_cases h1' : y < x
          · rw [if_pos h1'] at hab
            exact absurd hab (by simp)
          · rw [if_neg h1'] at hab
            have heq : x = y := le_antisymm (not_lt.mp h1') (not_lt.mp h1)
            subst heq
            by_cases h2 : x < z
            · rw [if_pos h2]
            · rw [if_neg h2] at hbc ⊢
              by_cases h3 : z < x
              · rw [if_pos h3] at hbc
                exact absurd hbc (by simp)
              · rw [if_neg h3] at hbc ⊢
                exact ih ys zs hab hbc

lemma listLtB_tricho :
    ∀ a b : List Char, listLtB a b = true ∨ listLtB b a = true ∨ a = b := by
  intro a
  induction a with
  | nil =>
    intro b
    cases b with
    | nil => right; right; rfl
    | cons y ys => left; rfl
  | cons x xs ih =>
    intro b
    cases b with
    | nil => right; left; rfl
    | cons y ys =>
      rcases lt_trichotomy x y with h | h | h
      · left
        rw [listLtB, if_pos h]
      · subst h
        rcases ih ys with h' | h' | h'
        · left
          rw [listLtB, if_neg (lt_irrefl x), if_neg (lt_irrefl x)]
          exact h'
        · right; left
          rw [listLtB, if_neg (lt_irrefl x), if_neg (lt_irrefl x)]
          exact h'
        · right; right
          rw [h']
      · right; left
        rw [listLtB, if_pos h]

lemma entLtB_irrefl (x : List Char × Int) : entLtB x x = false := by
  unfold entLtB
  rw [listLtB_irrefl]
  simp [lt_irrefl]

lemma entLtB_trans {x y z : List Char × Int} (hxy : entLtB x y = true)
    (hyz : entLtB y z = true) : entLtB x z = true := by
  unfold entLtB at hxy hyz ⊢
  simp only [Bool.or_eq_true, Bool.and_eq_true, decide_eq_true_eq] at hxy hyz ⊢
  rcases hxy with h1 | ⟨h1, h1'⟩
  · rcases hyz with h2 | ⟨h2, _⟩
    · exact Or.inl (listLtB_trans _ _ _ h1 h2)
    · exact Or.inl (h2 ▸ h1)
  · rcases hyz with h2 | ⟨h2, h2'⟩
    · exact Or.inl (h1 ▸ h2)
    · exact Or.inr ⟨h1.trans h2, lt_trans h1' h2'⟩

lemma entLtB_tricho (x y : List Char × Int) :
    entLtB x y = true ∨ entLtB y x = true ∨ x = y := by
  rcases listLtB_tricho x.1 y.1 with h | h | h
  · left
    unfold entLtB
    rw [h]
    rfl
  · right; left
    unfold entLtB
    rw [h]
    rfl
  · rcases lt_trichotomy x.2 y.2 with h2 | h2 | h2
    · left
      unfold entLtB
      simp [h, h2]
    · right; right
      exact Prod.ext h h2
    · right; left
      unfold entLtB
      simp [h.symm, h2]

lemma entLtB_asymm {x y : List Char × Int} (h : entLtB x y = true) :
    entLtB y x = false := by
  by_contra hcontra
  rw [Bool.not_eq_false] at hcontra
  have := entLtB_trans h hcontra
  rw [entLtB_irrefl] at this
  simp at this

instance : IsTrans (List Char × Int) entLe where
  trans := by
    intro x y z hxy hyz
    unfold entLe at hxy hyz ⊢
    by_contra hcontra
    rw [Bool.not_eq_false] at hcontra
    rcases entLtB_tricho x y with h | h | h
    · have := entLtB_trans hcontra h
      rw [hyz] at this
      simp at this
    · rw [hxy] at h
      simp at h
    · subst h
      rw [hyz] at hcontra
      simp at hcontra

instance : IsTotal (List Char × Int) entLe where
  total := by
    intro x y
    unfold entLe
    by_cases h : entLtB y x = true
    · right
      exact entLtB_asymm h
    · left
      exact Bool.eq_false_iff.mpr h

instance : IsAntisymm (List Char × Int) entLe where
  antisymm := by
    intro x y hxy hyx
    unfold entLe at hxy hyx
    rcases entLtB_tricho x y with h | h | h
    · rw [hyx] at h
      simp at h
    · rw [hxy] at h
      simp at h
    · exact h

lemma collectTW_all_ge (sub : List Char) :
    ∀ l : List (List Char × Int), List.Sorted entLe l →
      (∀ e ∈ l, listLtB e.1 sub = false) →
      collectTW sub l = (l.filter fun e => decide (e.1 = sub)).map (fun e => e.2) := by
  intro l
  induction l with
  | nil => intro _ _; rfl
  | cons f fs ih =>
    intro hsort hge
    rw [List.sorted_cons] at hsort
    rw [collectTW]
    by_cases hf : f.1 = sub
    · rw [if_pos hf, List.filter_cons, if_pos (by simp [hf]), List.map_cons]
      congr 1
      exact ih hsort.2 (fun e he => hge e (List.mem_cons_of_mem f he))
    · rw [if_neg hf, List.filter_cons, if_neg (by simp [hf])]
      have hflt : listLtB sub f.1 = true := by
        rcases listLtB_tricho f.1 sub with h | h | h
        · rw [hge f (List.mem_cons_self f fs)] at h
          simp at h
        · exact h
        · exact absurd h hf
      have hnone : ∀ g ∈ fs, ¬ ((fun e : List Char × Int => decide (e.1 = sub)) g = true) := by
        intro g hg
        simp only [decide_eq_true_eq]
        intro hgsub
        have hle := hsort.1 g hg
        unfold entLe entLtB at hle
        rw [hgsub, hflt] at hle
        simp at hle
      rw [List.filter_eq_nil_iff.mpr hnone]
      rfl

lemma collectTW_from_bisect (sub : List Char) :
    ∀ l : List (List Char × Int), List.Sorted entLe l →
      (∀ e ∈ l, 0 ≤ e.2) →
      collectTW sub (l.drop (bisect_left l (sub, -1)))
        = (l.filter fun e => decide (e.1 = sub)).map (fun e => e.2) := by
  intro l
  induction l with
  | nil => intro _ _; rfl
  | cons e es ih =>
    intro hsort hge
    have hsort' := (List.sorted_cons.mp hsort).2
    have hkey : entLtB e (sub, (-1 : Int)) = listLtB e.1 sub := by
      have h2 : ¬ (e.2 < (-1 : Int)) := by
        have := hge e (List.mem_cons_self e es)
        omega
      unfold entLtB
      simp [h2]
    unfold bisect_left
    rw [List.findIdx_cons]
    by_cases hlt : listLtB e.1 sub = true
    · have hcond : (!entLtB e (sub, (-1 : Int))) = false := by
        rw [hkey, hlt]
        rfl
      rw [hcond, cond_false, List.drop_succ_cons]
      have hrec := ih hsort' (fun x hx => hge x (List.mem_cons_of_mem e hx))
      unfold bisect_left at hrec
      rw [hrec]
      have hne : ¬ (e.1 = sub) := by
        intro hcontra
        rw [hcontra, listLtB_irrefl] at hlt
        simp at hlt
      rw [List.filter_cons, if_neg (by simp [hne])]
    · have hcond : (!entLtB e (sub, (-1 : Int))) = true := by
        rw [hkey, Bool.eq_false_iff.mpr hlt]
        rfl
      rw [hcond, cond_true, List.drop_zero]
      apply collectTW_all_ge sub (e :: es) hsort
      intro g hg
      rcases List.mem_cons.mp hg with rfl | hg'
      · exact Bool.eq_false_iff.mpr hlt
      · by_contra hcontra
        rw [Bool.not_eq_false] at hcontra
        have hle := (List.sorted_cons.mp hsort).1 g hg'
        unfold entLe at hle
        rcases listLtB_tricho e.1 g.1 with h | h | h
        · exact hlt (listLtB_trans _ _ _ h hcontra)
        · unfold entLtB at hle
          rw [h] at hle
          simp at hle
        · rw [← h] at hcontra
          exact hlt hcontra

/-- C6: for `k ≥ 1`, `ival ≥ 1`, `SubseqIndex(t,k,ival).get_hits(p)` returns
exactly the offsets `i ∈ [0, len(t) - span]` with
`t[i:i+span:ival] == p[:span:ival]` (`span = 1 + ival*(k-1)`), in increasing
order, via binary search over the index sorted by `(subsequence, offset)`. -/
theorem subseq_get_hits_correct (t : List Char) (k ival : Nat)
    (hk : 1 ≤ k) (hiv : 1 ≤ ival) (p : List Char) :
    get_hits t k ival p
      = ((List.range (t.length + 1 - span k ival)).filter
          (fun i => decide (pySlice t i (i + span k ival) ival
            = pySlice p 0 (span k ival) ival))).map (fun i : Nat => (i : Int)) := by
  have hsorted : List.Sorted entLe (subseqSorted t k ival) :=
    List.sorted_insertionSort entLe _
  have hperm : List.Perm (subseqSorted t k ival) (subseqEntries t k ival) :=
    List.perm_insertionSort entLe _
  have hge : ∀ e ∈ subseqSorted t k ival, 0 ≤ e.2 := by
    intro e he
    have he' : e ∈ subseqEntries t k ival := hperm.mem_iff.mp he
    unfold subseqEntries at he'
    rw [List.mem_map] at he'
    obtain ⟨i, _, rfl⟩ := he'
    simp
  unfold get_hits
  rw [collectTW_from_bisect _ _ hsorted hge]
  have hEq : ((subseqEntries t k ival).filter
        (fun e => decide (e.1 = pySlice p 0 (span k ival) ival))).map (fun e => e.2)
      = ((List.range (t.length + 1 - span k ival)).filter
          (fun i => decide (pySlice t i (i + span k ival) ival
            = pySlice p 0 (span k ival) ival))).map (fun i : Nat => (i : Int)) := by
    unfold subseqEntries
    rw [List.filter_map, List.map_map]
    rfl
  apply List.eq_of_perm_of_sorted (r := fun a b : Int => a ≤ b)
  · exact List.Perm.trans (List.Perm.map _ (List.Perm.filter _ hperm)) (hEq ▸ List.Perm.refl _)
  · apply List.pairwise_map.mpr
    apply List.Pairwise.imp_of_mem ?_
      (List.Pairwise.sublist (List.filter_sublist _) hsorted)
    intro a b ha hb hab
    have ha1 : a.1 = pySlice p 0 (span k ival) ival := by
      have := (List.mem_filter.mp ha).2
      simpa using this
    have hb1 : b.1 = pySlice p 0 (span k ival) ival := by
      have := (List.mem_filter.mp hb).2
      simpa using this
    unfold entLe entLtB at hab
    rw [hb1, ha1, listLtB_irrefl] at hab
    simp only [Bool.false_or, Bool.and_eq_false_iff, decide_eq_false_iff_not,
      decide_eq_true_eq] at hab
    rcases hab with h | h
    · simp at h
    · omega
  · apply List.pairwise_map.mpr
    apply List.Pairwise.imp ?_
      (List.Pairwise.sublist (List.filter_sublist _) (List.pairwise_lt_range _))
    intro a b h
    exact_mod_cast le_of_lt h

theorem subseq_get_hits_correct_witness :
    get_hits ['A', 'T', 'A', 'T'] 2 2 ['A', 'T', 'A'] = [(0 : Int)] :=
  (subseq_get_hits_correct ['A', 'T', 'A', 'T'] 2 2 (by decide) (by decide)
    ['A', 'T', 'A']).trans (by decide)

/-- C3: the two seeding strategies are not interchangeable.  On
`P = "AC"`, `T = "AG"`, `m = 1` the partition matcher finds the occurrence at
offset 0 (Hamming distance 1 ≤ m) while the subsequence-index matcher rejects
it: its shadowed loop variable `m` (the hit offset, here 0) replaces the
mismatch budget in the acceptance test `mismatches <= m`. -/
theorem approx_strategies_disagree :
    (query_bm ['A', 'C'] ['A', 'G'] 1).1 = [0] ∧
      (query_subseq_index ['A', 'C'] ['A', 'G'] 1 1 none).1 = [] := by decide

lemma sinsert_nodup (a : Nat) (l : List Nat) (h : l.Nodup) : (sinsert a l).Nodup := by
  unfold sinsert
  by_cases hm : a ∈ l
  · rw [if_pos hm]
    exact h
  · rw [if_neg hm]
    exact List.nodup_cons.mpr ⟨hm, h⟩

lemma sinsertI_nodup (a : Int) (l : List Int) (h : l.Nodup) : (sinsertI a l).Nodup := by
  unfold sinsertI
  by_cases hm : a ∈ l
  · rw [if_pos hm]
    exact h
  · rw [if_neg hm]
    exact List.nodup_cons.mpr ⟨hm, h⟩

lemma procMatches_nodup (p t : List Char) (m ps pe : Nat) :
    ∀ os occ hits, occ.Nodup → (procMatches p t m ps pe os occ hits).1.Nodup := by
  intro os
  induction os with
  | nil =>
    intro occ hits h
    rw [procMatches]
    exact h
  | cons o os ih =>
    intro occ hits h
    rw [procMatches]
    by_cases hb1 : o < ps
    · rw [if_pos hb1]
      exact ih occ (hits + 1) h
    · rw [if_neg hb1]
      by_cases hb2 : t.length < o - ps + p.length
      · rw [if_pos hb2]
        exact ih occ (hits + 1) h
      · rw [if_neg hb2]
        by_cases hb3 : ecount (fun j => decide (charAt p j ≠ charAt t (o - ps + j))) m
            (List.range' pe (p.length - pe))
            (ecount (fun j => decide (charAt p j ≠ charAt t (o - ps + j))) m
              (List.range ps) 0) ≤ m
        · rw [if_pos hb3]
          exact ih _ (hits + 1) (sinsert_nodup _ _ h)
        · rw [if_neg hb3]
          exact ih occ (hits + 1) h

lemma qbLoop_nodup (p t : List Char) (m L : Nat) :
    ∀ rem i occ hits, occ.Nodup → (qbLoop p t m L rem i occ hits).1.Nodup := by
  intro rem
  induction rem with
  | zero =>
    intro i occ hits h
    rw [qbLoop]
    exact h
  | succ rem ih =>
    intro i occ hits h
    rw [qbLoop]
    by_cases hemp : ((p.drop (i * L)).take (min (i * L + L) p.length - i * L)).isEmpty = true
    · rw [if_pos hemp]
      exact h
    · rw [if_neg hemp]
      exact ih (i + 1) _ _ (procMatches_nodup p t m _ _ _ occ hits h)

lemma qsProc_nodup (p t : List Char) (start : Nat) :
    ∀ hs acc hits, acc.Nodup → (qsProc p t start hs acc hits).1.Nodup := by
  intro hs
  induction hs with
  | nil =>
    intro acc hits h
    rw [qsProc]
    exact h
  | cons x xs ih =>
    intro acc hits h
    rw [qsProc]
    by_cases hb1 : x < (start : Int)
    · rw [if_pos hb1]
      exact ih acc (hits + 1) h
    · rw [if_neg hb1]
      by_cases hb2 : (t.length : Int) < x - start + p.length
      · rw [if_pos hb2]
        exact ih acc (hits + 1) h
      · rw [if_neg hb2]
        by_cases hb3 : ((ecountI (fun j => decide (charAt p j ≠ charAtI t (x - start + j))) x
            (List.range p.length) 0 : Nat) : Int) ≤ x
        · rw [if_pos hb3]
          exact ih _ (hits + 1) (sinsertI_nodup _ _ h)
        · rw [if_neg hb3]
          exact ih acc (hits + 1) h

lemma qsLoop_nodup (p t : List Char) (k ival : Nat) :
    ∀ rem i acc hits, acc.Nodup → (qsLoop p t k ival rem i acc hits).1.Nodup := by
  intro rem
  induction rem with
  | zero =>
    intro i acc hits h
    rw [qsLoop]
    exact h
  | succ rem ih =>
    intro i acc hits h
    rw [qsLoop]
    exact ih (i + 1) _ _ (qsProc_nodup p t i _ acc hits h)

/-- C9: both approximate matchers return their occurrence sets as
duplicate-free lists sorted in strictly increasing order (`sorted(set(...))`
in the source). -/
theorem approx_outputs_sorted_nodup (p t : List Char) (m ival : Nat)
    (kOpt : Option Nat) :
    List.Sorted (· < ·) (query_bm p t m).1 ∧
      List.Sorted (· < ·) (query_subseq_index p t m ival kOpt).1 := by
  constructor
  · unfold query_bm
    apply List.Sorted.lt_of_le (List.sorted_insertionSort _ _)
    exact ((List.perm_insertionSort _ _).nodup_iff).mpr
      (qbLoop_nodup p t m _ (m + 1) 0 [] 0 List.nodup_nil)
  · unfold query_subseq_index
    apply List.Sorted.lt_of_le (List.sorted_insertionSort _ _)
    exact ((List.perm_insertionSort _ _).nodup_iff).mpr
      (qsLoop_nodup p t _ ival (m + 1) 0 [] 0 List.nodup_nil)

/-- C8 amended: `BoyerMooreExact.query` increments `num_alignments_tried`
exactly once per while-loop iteration, so it returns the length of the list
of alignments tried; the L02 `boyer_moore_alignment` instead returns the
final `alignment_start_idx`, which equals the sum of all applied shifts and
exceeds the iteration count whenever some shift is `> 1`. -/
theorem alignments_tried_semantics (p t : List Char) :
    (query p t).2.1 = (alignsList p t).length ∧
      (queryL02 p t).2.1 = ((alignsList p t).map (shiftAt p t)).sum := by
  constructor
  · exact bmLoop_count p t (t.length + 1) 0
  · have := bmLoopL02_count p t (t.length + 1) 0
    simpa using this

end GDS
